import Mathlib

/-!
# Verification of the `eager` token-rewriting engine

This file gives a shallow embedding of the repository's core: the
`eager_internal!` token-stream decode/re-encode state machine of
`src/eager.rs`, together with the rule-set rewriting performed by
`eager_macro_rules_internal!` in `src/eager_macro_rules.rs`.

The Rust source is a `macro_rules!` program: its data are token trees and
its "functions" are rewrite rules tried in order.  The embedding mirrors
this directly:

* `Tok` is a token tree: an atomic token (identifier, literal or
  punctuation, represented by its text) or a delimited group
  (`{...}`, `(...)`, `[...]`).
* `Frame` is one decode level `[mode modefix prefix postfix block?]`
  exactly as described by the comment block of `src/eager.rs` (lines
  286-429): `mode` is `[]` (eager) or `[@lazy]` (lazy), `mfix` is the
  mode postfix, `pre` is the reverse-order prefix accumulator, `post`
  is the block postfix, and `blk` is the optional current block with
  its delimiter kind.
* `EState` is a machine state: either a `@check_expansion` state (a
  stack of levels, innermost first, plus the remaining input), or a
  `@reverse_tt` state (the two accumulators of the final reversal).
* `step` performs exactly one rule application of `eager_internal!`,
  trying the rules in their source order; `StepRes.stuck` means no rule
  of the source matches (a compile error in the host).  A call to an
  eager-enabled expander is represented by `StepRes.disp`: the engine
  suspends, handing the expander name, the argument tokens and the
  embedded resumption stack to the environment.
* `resumeWith` is the `@from_macro` entry point: the expander's
  replacement re-enters the engine with the stored postfix appended.
* an environment `Env` maps an expander name (an arbitrary token tree,
  as in the source's `$macro_name:tt`) and argument tokens to the
  replacement chosen by the expander's rules, `none` meaning the host
  would fail (unknown name or no matching rule).
-/

/-- Delimiter kind of a group: `{}`, `()` or `[]`. -/
inductive Delim where
  | curly
  | round
  | square
deriving DecidableEq

/-- A token tree: an atomic token carrying its text, or a delimited group. -/
inductive Tok where
  | simple (s : String)
  | group (d : Delim) (ts : List Tok)

mutual

/-- Decidable equality of token trees (the automatic derivation does not
handle the nested occurrence of `List Tok`). -/
def Tok.decEq : (a b : Tok) → Decidable (a = b)
  | .simple x, .simple y =>
    match String.decEq x y with
    | isTrue h => isTrue (by rw [h])
    | isFalse h => isFalse (by intro hh; cases hh; exact h rfl)
  | .simple _, .group _ _ => isFalse (by intro hh; cases hh)
  | .group _ _, .simple _ => isFalse (by intro hh; cases hh)
  | .group d1 l1, .group d2 l2 =>
    match instDecidableEqDelim d1 d2, Tok.decEqList l1 l2 with
    | isTrue h1, isTrue h2 => isTrue (by rw [h1, h2])
    | isFalse h1, _ => isFalse (by intro hh; cases hh; exact h1 rfl)
    | _, isFalse h2 => isFalse (by intro hh; cases hh; exact h2 rfl)

/-- Decidable equality of token-tree lists. -/
def Tok.decEqList : (a b : List Tok) → Decidable (a = b)
  | [], [] => isTrue rfl
  | [], _ :: _ => isFalse (by intro hh; cases hh)
  | _ :: _, [] => isFalse (by intro hh; cases hh)
  | x :: xs, y :: ys =>
    match Tok.decEq x y, Tok.decEqList xs ys with
    | isTrue h1, isTrue h2 => isTrue (by rw [h1, h2])
    | isFalse h1, _ => isFalse (by intro hh; cases hh; exact h1 rfl)
    | _, isFalse h2 => isFalse (by intro hh; cases hh; exact h2 rfl)

end

instance : DecidableEq Tok := Tok.decEq

/-- The `!` punctuation token that forms an invocation's call marker. -/
def bangTok : Tok := Tok.simple "!"

/-- Expansion mode of a decode level: `[]` (eager) or `[@lazy]` (lazy). -/
inductive Mode where
  | eag
  | laz
deriving DecidableEq

/-- The opposite mode, used when a mode-switch region begins or ends. -/
def Mode.flip : Mode → Mode
  | .eag => .laz
  | .laz => .eag

/-- The keyword that is a no-op in the given mode (`eager` in eager mode,
`lazy` in lazy mode). -/
def Mode.kwSame : Mode → String
  | .eag => "eager"
  | .laz => "lazy"

/-- The keyword that switches away from the given mode. -/
def Mode.kwOpp : Mode → String
  | .eag => "lazy"
  | .laz => "eager"

/-- One decode level `[mode modefix prefix postfix block?]` of
`eager_internal!`.  A 4-element level of the source has `blk = none`; a
5-element level stores the block's delimiter kind and decoded contents. -/
structure Frame where
  mode : Mode
  mfix : List Tok
  pre : List Tok
  post : List Tok
  blk : Option (Delim × List Tok)
deriving DecidableEq

/-- A state of `eager_internal!`: a `@check_expansion` state (stack of
levels, innermost first, plus remaining input) or a `@reverse_tt` state. -/
inductive EState where
  | chk (stack : List Frame) (inp : List Tok)
  | rev (toRev : List Tok) (acc : List Tok)
deriving DecidableEq

/-- Result of one rule application: an internal successor state, a
suspension calling out to a named expander (carrying the argument tokens
and the embedded resumption stack), the final output (emitted by the last
`@reverse_tt` rule), or no matching rule (a host compile error). -/
inductive StepRes where
  | cont (s : EState)
  | disp (name : Tok) (args : List Tok) (resume : List Frame)
  | done (out : List Tok)
  | stuck
deriving DecidableEq

/-- Decompose a reverse-order prefix whose most recent entries are
`! name` (a pending invocation head), as matched by the source pattern
`[! $macro_name:tt $($prefix:tt)*]`. -/
def dispHead : List Tok → Option (Tok × List Tok)
  | Tok.simple s :: n :: p => if s = "!" then some (n, p) else none
  | _ => none

/-- Every level of the stack is a 5-element level (has a block), as
required by the level-popping rule of `eager_internal!`. -/
def allBlk (S : List Frame) : Bool :=
  S.all fun fr => fr.blk.isSome

/-- One rule application of `eager_internal!`'s `@check_expansion` and
`@reverse_tt` forms, with the rules tried in their source order
(`src/eager.rs` lines 449-942). -/
def step : EState → StepRes
  | .chk [] _ => .stuck
  | .chk (⟨m, mf, p, pf, blk⟩ :: S) (t :: r) =>
    -- rules on non-empty input all require a 4-element level with empty postfix
    if blk ≠ none ∨ pf ≠ [] then .stuck else
    match t with
    | Tok.group d b =>
      -- descend into a block, pushing a fresh level (lines 450-497)
      .cont (.chk (⟨m, [], [], [], none⟩ :: ⟨m, mf, p, r, some (d, [])⟩ :: S) b)
    | Tok.simple s =>
      match r with
      | Tok.simple s2 :: Tok.group _ b :: r2 =>
        if s2 = "!" then
          if s = m.kwSame then
            -- same-mode keyword: unwrap, splicing its body (lines 499-594)
            .cont (.chk (⟨m, mf, p, [], none⟩ :: S) (b ++ r2))
          else if s = m.kwOpp ∧ mf = [] then
            -- opposite-mode keyword with empty modefix: mode switch (lines 595-690)
            .cont (.chk (⟨m.flip, r2, p, [], none⟩ :: S) b)
          else
            -- any other token: push onto the prefix (line 692)
            .cont (.chk (⟨m, mf, Tok.simple s :: p, [], none⟩ :: S) r)
        else
          .cont (.chk (⟨m, mf, Tok.simple s :: p, [], none⟩ :: S) r)
      | _ =>
        .cont (.chk (⟨m, mf, Tok.simple s :: p, [], none⟩ :: S) r)
  | .chk (⟨m, mf, p, pf, blk⟩ :: S) [] =>
    match blk with
    | some (d, body) =>
      match m, dispHead p with
      | .eag, some (n, p2) =>
        -- decoded block preceded by `! name` in eager mode: call the
        -- expander, embedding the resumption stack (lines 710-757)
        .disp n body (⟨.eag, mf, p2, pf, none⟩ :: S)
      | m2, _ =>
        -- otherwise promote the block, with its delimiter kind, onto the
        -- prefix and resume from the stored postfix (lines 854-902)
        .cont (.chk (⟨m2, mf, Tok.group d body :: p, [], none⟩ :: S) pf)
    | none =>
      if pf = [] then
        if mf ≠ [] then
          -- promote the modefix to input in the opposite mode (lines 758-788)
          .cont (.chk (⟨m.flip, [], p, [], none⟩ :: S) mf)
        else
          match p, S with
          | last :: p2, ⟨m3, mf3, p3, pf3, some (d, gb)⟩ :: S2 =>
            -- move one prefix token into the parent's block (lines 790-838)
            .cont (.chk (⟨m, [], p2, [], none⟩ ::
                         ⟨m3, mf3, p3, pf3, some (d, last :: gb)⟩ :: S2) [])
          | _ :: _, ⟨_, _, _, _, none⟩ :: _ => .stuck
          | last :: p2, [] =>
            -- single exhausted level: emit the prefix through `@reverse_tt`
            -- (lines 904-917)
            .cont (.rev (last :: p2) [])
          | [], [] => .cont (.rev [] [])
          | [], S0 :: S2 =>
            -- empty exhausted level above a stack of blocks: pop it (line 839)
            if allBlk (S0 :: S2) then .cont (.chk (S0 :: S2) []) else .stuck
      else .stuck
  | .rev (x :: y :: rest) acc => .cont (.rev (y :: rest) (x :: acc))
  | .rev [x] acc => .done (x :: acc)
  | .rev [] _ => .stuck

/-- The `@from_macro` entry point of `eager_internal!` (lines 433-448):
the expander's replacement becomes new input with the resumption level's
stored postfix appended after it, and that postfix is cleared.  The top
level must be a 4-element level, as in the source pattern. -/
def resumeWith (frames : List Frame) (exp : List Tok) : Option EState :=
  match frames with
  | ⟨m, mf, p, pf, none⟩ :: rest => some (.chk (⟨m, mf, p, [], none⟩ :: rest) (exp ++ pf))
  | _ => none

/-- An expansion environment: what each eager-enabled expander replaces
the given argument tokens with; `none` models a host failure (unknown
name, or no rule of the expander matching the arguments). -/
def Env : Type := Tok → List Tok → Option (List Tok)

/-- The environment with no eager-enabled expanders at all. -/
def envNone : Env := fun _ _ => none

/-- The entry state seeded by `eager!` (lines 272-284): a single level
`[[][][][]]` (eager mode, all accumulators empty) with the whole input. -/
def entry (inp : List Tok) : EState :=
  .chk [⟨.eag, [], [], [], none⟩] inp

/-- Run the engine for at most `fuel` rule applications, resolving
expander calls through `env`.  `none` models a host failure (no matching
rule, a failed expander call) or fuel exhaustion. -/
def run (env : Env) : Nat → EState → Option (List Tok)
  | 0, _ => none
  | fuel + 1, s =>
    match step s with
    | .cont s2 => run env fuel s2
    | .done out => some out
    | .stuck => none
    | .disp n args fr =>
      match env n args with
      | none => none
      | some exp =>
        match resumeWith fr exp with
        | none => none
        | some s2 => run env fuel s2

/-- The head token does not start a mode keyword invocation here: it is
not `eager` or `lazy` immediately followed by `!` and a group. -/
def kwWin : Tok → List Tok → Bool
  | Tok.simple n, Tok.simple s2 :: Tok.group _ _ :: _ =>
    !(s2 == "!" && (n == "eager" || n == "lazy"))
  | _, _ => true

mutual

/-- No mode keyword invocation occurs inside this token tree. -/
def Tok.noKwT : Tok → Bool
  | .simple _ => true
  | .group _ g => Tok.noKwL g

/-- No mode keyword invocation (`eager ! ⟨group⟩` or `lazy ! ⟨group⟩`)
occurs in this token sequence, at any nesting depth. -/
def Tok.noKwL : List Tok → Bool
  | [] => true
  | t :: rest => Tok.noKwT t && kwWin t rest && Tok.noKwL rest

end

/-- No mode keyword invocation occurs anywhere in the token sequence. -/
def noKw : List Tok → Bool := Tok.noKwL

/-- Reference call-by-value (innermost-first) expansion, stated
independently of the decode engine, as the specification describes it:
the arguments of an invocation are fully expanded before the invocation
itself is dispatched, and the replacement is re-expanded together with
the tokens following the invocation.  `eager ! ⟨g⟩` is a no-op unwrap and
`lazy ! ⟨g⟩` emits its body `g` verbatim (only bodies free of further
mode keywords and not ending in a stray `!` are given a meaning here).
Out-of-scope shapes — a bare `!` that is not the call marker of a
`name ! ⟨group⟩` invocation — get `none`, as does fuel exhaustion and
any failing expander call. -/
def espec (env : Env) : Nat → List Tok → Option (List Tok)
  | 0, _ => none
  | _ + 1, [] => some []
  | f + 1, Tok.simple n :: Tok.simple s2 :: Tok.group d g :: rest =>
    if n = "!" then none
    else if s2 = "!" then
      if n = "eager" then espec env f (g ++ rest)
      else if n = "lazy" then
        if noKw g && !(g.getLast? == some bangTok) then
          (espec env f rest).map (fun r => g ++ r)
        else none
      else
        match espec env f g with
        | none => none
        | some args =>
          match env (Tok.simple n) args with
          | none => none
          | some rep => espec env f (rep ++ rest)
    else (espec env f (Tok.simple s2 :: Tok.group d g :: rest)).map
      (fun r => Tok.simple n :: r)
  | f + 1, Tok.simple n :: rest =>
    if n = "!" then none else (espec env f rest).map (fun r => Tok.simple n :: r)
  | f + 1, Tok.group d g :: rest =>
    match espec env f g, espec env f rest with
    | some g2, some r2 => some (Tok.group d g2 :: r2)
    | _, _ => none

/-- Zero or more engine transitions under environment `env`: internal
rule applications, and expander calls resolved by `env` and resumed via
`@from_macro`.  Because `step` is a function, the transition out of every
state is unique, so a `StepsE` derivation records the engine's actual
execution path. -/
inductive StepsE (env : Env) : EState → EState → Prop
  | refl (s : EState) : StepsE env s s
  | cont {s s2 s3 : EState} : step s = .cont s2 → StepsE env s2 s3 → StepsE env s s3
  | disp {s : EState} {n : Tok} {args exp : List Tok} {fr : List Frame} {s2 s3 : EState} :
      step s = .disp n args fr → env n args = some exp → resumeWith fr exp = some s2 →
      StepsE env s2 s3 → StepsE env s s3

/-- The engine, run from `s` under `env`, reaches the final `@reverse_tt`
rule and emits `out`. -/
def RunsTo (env : Env) (s : EState) (out : List Tok) : Prop :=
  ∃ s2, StepsE env s s2 ∧ step s2 = .done out

/-- Reachability irrespective of any environment: at a dispatch, the
expander may come back with an arbitrary replacement. -/
inductive ReachAny : EState → EState → Prop
  | refl (s : EState) : ReachAny s s
  | cont {s s2 s3 : EState} : step s = .cont s2 → ReachAny s2 s3 → ReachAny s s3
  | disp {s : EState} {n : Tok} {args exp : List Tok} {fr : List Frame} {s2 s3 : EState} :
      step s = .disp n args fr → resumeWith fr exp = some s2 →
      ReachAny s2 s3 → ReachAny s s3

/-!
## The registry constructor `eager_macro_rules_internal!`

A user rule is written `⟨delim⟩pattern ⟨delim⟩ => ⟨delim⟩replacement⟨delim⟩`
with any of the three delimiters on either side.  The constructor munches
this stream (`@first` / `@expansion`), normalizing the delimiters away,
and finally (`@final`) emits one tagged rule per user rule followed by
one plain rule per user rule.  The metadata/name/sentinel bookkeeping
that `eager_macro_rules_internal!` threads through unchanged is not part
of the rule-set computation and is omitted.
-/

/-- A user rule as accumulated by the constructor: pattern tokens and
replacement tokens (delimiters already normalized away). -/
structure URule where
  pat : List Tok
  exp : List Tok
deriving DecidableEq

/-- A rule of the emitted expander: either the sentinel-tagged form
(matching `@eager[⟨resumption frames⟩] pattern`) or the plain form
(matching the user's pattern directly). -/
inductive ERule where
  | tagged (pat exp : List Tok)
  | plain (pat exp : List Tok)
deriving DecidableEq

/-- The `@final` rules (`src/eager_macro_rules.rs` lines 205-233): emit
first the tagged form of every accumulated rule, then the plain form of
every accumulated rule, each in the user's order.  The source pattern
requires at least one rule (`$(...)+`); with none, no rule of the
constructor matches and the host fails. -/
def emrFinal (acc : List URule) : Option (List ERule) :=
  match acc with
  | [] => none
  | _ =>
    some (acc.map (fun r => ERule.tagged r.pat r.exp) ++
          acc.map (fun r => ERule.plain r.pat r.exp))

mutual

/-- The `@first` rules (lines 72-143): an empty stream finishes via
`@final`; a delimited pattern group followed by at least one more token
is stored (delimiter normalized away) and the stream continues in
`@expansion`; anything else matches no rule. -/
def emrFirst (acc : List URule) : List Tok → Option (List ERule)
  | [] => emrFinal acc
  | Tok.group _ g :: r :: rest => emrExp acc g (r :: rest)
  | _ => none

/-- The `@expansion` rules (lines 146-202): a `=>` followed by a
delimited replacement group appends the completed rule and returns to
`@first`; anything else matches no rule. -/
def emrExp (acc : List URule) (g : List Tok) : List Tok → Option (List ERule)
  | Tok.simple a :: Tok.group _ e :: rest =>
    if a = "=>" then emrFirst (acc ++ [⟨g, e⟩]) rest else none
  | _ => none

end

/-- A user rule as written in the source stream, with its two delimiter
kinds. -/
structure SRule where
  gd : Delim
  pat : List Tok
  ed : Delim
  exp : List Tok
deriving DecidableEq

/-- Encode a list of user rules as the token stream that
`eager_macro_rules!` hands to `eager_macro_rules_internal!`:
`⟨pattern group⟩ => ⟨replacement group⟩ ...`. -/
def encodeRules : List SRule → List Tok :=
  List.foldr (fun r acc => Tok.group r.gd r.pat :: Tok.simple "=>" :: Tok.group r.ed r.exp :: acc) []

/-- The token written `@eager` in the emitted tagged rules, modelled as a
single marker token. -/
def eagerMarker : Tok := Tok.simple "@eager"

/-- What a tagged rule expands to: `eager_internal!{@from_macro[frames]
replacement}`, re-entering the decode engine. -/
def taggedOut (frames : List Tok) (e : List Tok) : List Tok :=
  [Tok.simple "eager_internal", bangTok,
   Tok.group .curly (Tok.simple "@from_macro" :: Tok.group .square frames :: e)]

/-- Whether one emitted rule matches the given input tokens, for
variable-free (literal) patterns: a plain rule matches its pattern
exactly; a tagged rule matches the sentinel marker, then any square
resumption group, then its pattern exactly. -/
def eruleMatch : ERule → List Tok → Bool
  | .plain g _, inp => inp == g
  | .tagged g _, inp =>
    match inp with
    | m :: Tok.group .square _ :: rest => m == eagerMarker && rest == g
    | _ => false

/-- The replacement produced by an emitted rule once it matched. -/
def eruleOut : ERule → List Tok → List Tok
  | .plain _ e, _ => e
  | .tagged _ e, inp =>
    match inp with
    | _ :: Tok.group .square fr :: _ => taggedOut fr e
    | _ => e

/-- Invoke an emitted expander directly: the host tries the rules in
order and uses the first whose pattern matches. -/
def invokeE : List ERule → List Tok → Option (List Tok)
  | [], _ => none
  | r :: rs, inp => if eruleMatch r inp then some (eruleOut r inp) else invokeE rs inp

/-- Invoke the original, unwrapped `macro_rules!` declaration: the first
user rule whose (literal) pattern matches yields its replacement. -/
def invokeOrig : List SRule → List Tok → Option (List Tok)
  | [], _ => none
  | r :: rs, inp => if inp == r.pat then some r.exp else invokeOrig rs inp

/-- Iterate `step` for exactly `k` internal transitions, `none` if a
transition is not of the internal (`cont`) kind. -/
def iterCont : Nat → EState → Option EState
  | 0, s => some s
  | k + 1, s =>
    match step s with
    | .cont s2 => iterCont k s2
    | _ => none

mutual

/-- Size of a token tree, used as induction measure. -/
def Tok.szT : Tok → Nat
  | .simple _ => 1
  | .group _ g => 1 + Tok.szL g

/-- Size of a token list, used as induction measure. -/
def Tok.szL : List Tok → Nat
  | [] => 0
  | t :: r => Tok.szT t + Tok.szL r

end

/-- The state invariant maintained by the engine from the entry state on:
the stack is non-empty, every level below the top holds an open block, a
4-element level has an empty block postfix, and while input remains the
top level is a 4-element level.  A `@reverse_tt` state with nothing left
to reverse can only carry an empty result. -/
def WFs : EState → Prop
  | .chk [] _ => False
  | .chk (F :: S) inp =>
    (∀ fr ∈ S, fr.blk ≠ none) ∧
    (∀ fr ∈ F :: S, fr.blk = none → fr.post = []) ∧
    (inp ≠ [] → F.blk = none)
  | .rev l acc => l = [] → acc = []

/-- Environment of the documentation's first scenario: the single
expander `plus_1`, whose one rule maps no arguments to `+ 1`. -/
def envP : Env := fun n args =>
  if n = Tok.simple "plus_1" ∧ args = [] then
    some [Tok.simple "+", Tok.simple "1"]
  else none

/-- A rule set whose first pattern spells out the `@eager` sentinel
shape, the declaration-time hazard the source documents ("No rules
should accept `@eager` as the first token"). -/
def rsHaz : List SRule :=
  [⟨.round, [eagerMarker, Tok.group .square [], Tok.simple "x"], .curly, [Tok.simple "1"]⟩,
   ⟨.round, [Tok.simple "x"], .curly, [Tok.simple "2"]⟩]

/-- A direct (plain-form) input matching `rsHaz`'s first pattern. -/
def inpHaz : List Tok := [eagerMarker, Tok.group .square [], Tok.simple "x"]

/-- The expander the constructor emits for `rsHaz`: both tagged rules,
then both plain rules. -/
def ersHaz : List ERule :=
  [.tagged [eagerMarker, Tok.group .square [], Tok.simple "x"] [Tok.simple "1"],
   .tagged [Tok.simple "x"] [Tok.simple "2"],
   .plain [eagerMarker, Tok.group .square [], Tok.simple "x"] [Tok.simple "1"],
   .plain [Tok.simple "x"] [Tok.simple "2"]]

/-- A one-rule user declaration within the documented restrictions. -/
def rsW : List SRule := [⟨.curly, [Tok.simple "p"], .round, [Tok.simple "e"]⟩]

theorem StepsE.trans {env : Env} {a b c : EState}
    (h1 : StepsE env a b) (h2 : StepsE env b c) : StepsE env a c := by
  induction h1 with
  | refl => exact h2
  | cont hs _ ih => exact StepsE.cont hs (ih h2)
  | disp hs he hr _ ih => exact StepsE.disp hs he hr (ih h2)

/-- A `StepsE` path that never resolves a dispatch (as is the case under
`envNone`, which has no expanders) is a path under every environment. -/
theorem StepsE.ofNone {env : Env} {a b : EState}
    (h : StepsE envNone a b) : StepsE env a b := by
  induction h with
  | refl => exact StepsE.refl _
  | cont hs _ ih => exact StepsE.cont hs ih
  | disp _ he => exact absurd he (by simp [envNone])

/-!
## One lemma per rule group of `eager_internal!`

Every later proof goes through these unfolding lemmas, one per decision
of `step`, so the case analysis of the source's rule order is done once.
-/

/-- The input starts with `! ⟨group⟩`, the only shape on which a pending
token could interact with the keyword rules. -/
def bangGroupHead : List Tok → Bool
  | Tok.simple s :: Tok.group _ _ :: _ => s == "!"
  | _ => false

theorem step_descend {m : Mode} {mf p r : List Tok} {S : List Frame} {d : Delim}
    {b : List Tok} :
    step (.chk (⟨m, mf, p, [], none⟩ :: S) (Tok.group d b :: r)) =
      .cont (.chk (⟨m, [], [], [], none⟩ :: ⟨m, mf, p, r, some (d, [])⟩ :: S) b) := by
  simp [step]

theorem step_push_nw {m : Mode} {mf p r : List Tok} {S : List Frame} {s : String}
    (h : bangGroupHead r = false) :
    step (.chk (⟨m, mf, p, [], none⟩ :: S) (Tok.simple s :: r)) =
      .cont (.chk (⟨m, mf, Tok.simple s :: p, [], none⟩ :: S) r) := by
  match r with
  | [] => simp [step]
  | Tok.group _ _ :: _ => simp [step]
  | [Tok.simple s2] => simp [step]
  | Tok.simple s2 :: Tok.simple _ :: _ => simp [step]
  | Tok.simple s2 :: Tok.group _ _ :: _ =>
    have h2 : ¬ s2 = "!" := by simpa [bangGroupHead] using h
    simp [step, h2]

theorem step_push_kwmiss {m : Mode} {mf p r2 : List Tok} {S : List Frame} {s : String}
    {d : Delim} {b : List Tok}
    (h1 : ¬ s = m.kwSame) (h2 : ¬ (s = m.kwOpp ∧ mf = [])) :
    step (.chk (⟨m, mf, p, [], none⟩ :: S)
          (Tok.simple s :: Tok.simple "!" :: Tok.group d b :: r2)) =
      .cont (.chk (⟨m, mf, Tok.simple s :: p, [], none⟩ :: S)
          (Tok.simple "!" :: Tok.group d b :: r2)) := by
  simp [step, h1, h2]

theorem step_unwrap {m : Mode} {mf p r2 : List Tok} {S : List Frame} {d : Delim}
    {b : List Tok} :
    step (.chk (⟨m, mf, p, [], none⟩ :: S)
          (Tok.simple m.kwSame :: Tok.simple "!" :: Tok.group d b :: r2)) =
      .cont (.chk (⟨m, mf, p, [], none⟩ :: S) (b ++ r2)) := by
  simp [step]

theorem step_switch {m : Mode} {p r2 : List Tok} {S : List Frame} {d : Delim}
    {b : List Tok} (h : ¬ m.kwOpp = m.kwSame) :
    step (.chk (⟨m, [], p, [], none⟩ :: S)
          (Tok.simple m.kwOpp :: Tok.simple "!" :: Tok.group d b :: r2)) =
      .cont (.chk (⟨m.flip, r2, p, [], none⟩ :: S) b) := by
  simp [step, h]

theorem step_disp {mf p2 pf : List Tok} {S : List Frame} {d : Delim}
    {body : List Tok} {n : Tok} :
    step (.chk (⟨.eag, mf, bangTok :: n :: p2, pf, some (d, body)⟩ :: S) []) =
      .disp n body (⟨.eag, mf, p2, pf, none⟩ :: S) := by
  simp [step, dispHead, bangTok]

theorem step_promote {m : Mode} {mf p pf : List Tok} {S : List Frame} {d : Delim}
    {body : List Tok} (h : m = .laz ∨ dispHead p = none) :
    step (.chk (⟨m, mf, p, pf, some (d, body)⟩ :: S) []) =
      .cont (.chk (⟨m, mf, Tok.group d body :: p, [], none⟩ :: S) pf) := by
  rcases h with h | h
  · subst h; simp [step]
  · cases m
    · simp [step, h]
    · simp [step]

theorem step_mfix {m : Mode} {mf p : List Tok} {S : List Frame} (h : mf ≠ []) :
    step (.chk (⟨m, mf, p, [], none⟩ :: S) []) =
      .cont (.chk (⟨m.flip, [], p, [], none⟩ :: S) mf) := by
  simp [step, h]

theorem step_merge {m m3 : Mode} {mf3 p3 pf3 p2 : List Tok} {S2 : List Frame}
    {d : Delim} {gb : List Tok} {last : Tok} :
    step (.chk (⟨m, [], last :: p2, [], none⟩ ::
                ⟨m3, mf3, p3, pf3, some (d, gb)⟩ :: S2) []) =
      .cont (.chk (⟨m, [], p2, [], none⟩ ::
                   ⟨m3, mf3, p3, pf3, some (d, last :: gb)⟩ :: S2) []) := by
  simp [step]

theorem step_pop {m : Mode} {S0 : Frame} {S2 : List Frame}
    (h : allBlk (S0 :: S2) = true) :
    step (.chk (⟨m, [], [], [], none⟩ :: S0 :: S2) []) =
      .cont (.chk (S0 :: S2) []) := by
  simp [step, h]

theorem step_fin {m : Mode} {p : List Tok} :
    step (.chk [⟨m, [], p, [], none⟩] []) = .cont (.rev p []) := by
  cases p <;> simp [step]

theorem step_rev_more {x y : Tok} {rest acc : List Tok} :
    step (.rev (x :: y :: rest) acc) = .cont (.rev (y :: rest) (x :: acc)) := by
  simp [step]

theorem step_rev_done {x : Tok} {acc : List Tok} :
    step (.rev [x] acc) = .done (x :: acc) := by
  simp [step]

/-!
## Claim C2 — beginning a mode-switch region
-/

/-- Counterexample to C2 as stated: in Expand mode with a non-empty
mode-suffix (`b` still pending) and `lazy ! {a}` next in the input, the
engine does not begin a mode-switch region.  The opposite-keyword rules
of `eager_internal!` (lines 595-690) require the modefix slot to be the
literal `[]`, so the catch-all rule (line 692) fires instead and pushes
the `lazy` identifier onto the prefix with the mode unchanged — rather
than flipping the mode and entering the keyword's body as C2 claims for
"any current contents of the frame's mode-suffix". -/
theorem c2_cex :
    step (.chk [⟨.eag, [Tok.simple "b"], [], [], none⟩]
        [Tok.simple "lazy", bangTok, Tok.group .curly [Tok.simple "a"]]) =
      .cont (.chk [⟨.eag, [Tok.simple "b"], [Tok.simple "lazy"], [], none⟩]
        [bangTok, Tok.group .curly [Tok.simple "a"]]) ∧
    step (.chk [⟨.eag, [Tok.simple "b"], [], [], none⟩]
        [Tok.simple "lazy", bangTok, Tok.group .curly [Tok.simple "a"]]) ≠
      .cont (.chk [⟨.laz, [], [], [], none⟩] [Tok.simple "a"]) :=
  ⟨by decide, by decide⟩

/-- C2 (amended: the frame's mode-suffix must be empty): whenever the top
frame's mode-suffix is empty and the next input item is a mode keyword
invocation of the mode opposite to the frame's current mode — with any
delimiter kind on the keyword's body — the engine begins a mode-switch
region: it stores all input after the keyword's body as the frame's
mode-suffix, flips the frame's mode, and sets the input to the keyword's
body. -/
theorem c2_switch : ∀ (m : Mode) (S : List Frame) (p b rest : List Tok) (d : Delim),
    step (.chk (⟨m, [], p, [], none⟩ :: S)
          (Tok.simple m.kwOpp :: bangTok :: Tok.group d b :: rest)) =
      .cont (.chk (⟨m.flip, rest, p, [], none⟩ :: S) b) := by
  intro m S p b rest d
  exact step_switch (by cases m <;> decide)

/-!
## Claim C3 — invocation dispatch and resumption
-/

/-- Counterexample to C3 as stated: at a dispatch the resumption frame
carries the frame's CURRENT mode-suffix and the group's stored postfix —
not an empty mode-suffix and an empty postfix as C3 claims.  Here the
mode-suffix holds `m` and the postfix holds `y` (the token that followed
the invocation `z ! (x)`), and both are embedded as they are. -/
theorem c3_cex :
    step (.chk [⟨.eag, [Tok.simple "m"], [bangTok, Tok.simple "z", Tok.simple "w"],
        [Tok.simple "y"], some (.round, [Tok.simple "x"])⟩] []) =
      .disp (Tok.simple "z") [Tok.simple "x"]
        [⟨.eag, [Tok.simple "m"], [Tok.simple "w"], [Tok.simple "y"], none⟩] ∧
    step (.chk [⟨.eag, [Tok.simple "m"], [bangTok, Tok.simple "z", Tok.simple "w"],
        [Tok.simple "y"], some (.round, [Tok.simple "x"])⟩] []) ≠
      .disp (Tok.simple "z") [Tok.simple "x"]
        [⟨.eag, [], [Tok.simple "w"], [], none⟩] :=
  ⟨by decide, by decide⟩

/-- C3 (amended: the resumption frame carries the frame's current
mode-suffix and the group's stored postfix, the postfix being cleared on
resumption): whenever the top frame's input is empty, a decoded pending
group is present, the mode is Expand and the front of the reverse prefix
is the call marker preceded (in original order) by a name token, the
engine removes the invocation head from the prefix and dispatches the
named expander with the group's contents, passing a resumption frame
carrying (mode, current mode-suffix, remaining prefix, stored postfix);
when the replacement arrives via `@from_macro`, it becomes new input
with the stored postfix appended after it and the postfix cleared, so
the tokens that originally followed the invocation are processed
immediately after the replacement, in the same region. -/
theorem c3_dispatch : ∀ (mf p pf body exp : List Tok) (d : Delim) (n : Tok)
    (S : List Frame),
    step (.chk (⟨.eag, mf, bangTok :: n :: p, pf, some (d, body)⟩ :: S) []) =
      .disp n body (⟨.eag, mf, p, pf, none⟩ :: S) ∧
    resumeWith (⟨.eag, mf, p, pf, none⟩ :: S) exp =
      some (.chk (⟨.eag, mf, p, [], none⟩ :: S) (exp ++ pf)) := by
  intro mf p pf body exp d n S
  exact ⟨step_disp, rfl⟩

/-!
## Claim C5 — the finalizer (`@reverse_tt`)
-/

/-- Loop invariant of `@reverse_tt`, with the already-reversed
accumulator generalized. -/
theorem revLoop : ∀ (l acc : List Tok), l ≠ [] →
    (∀ k, k < l.length - 1 →
      ∃ s, iterCont k (.rev l acc) = some s ∧ ∃ s2, step s = .cont s2) ∧
    (∃ s, iterCont (l.length - 1) (.rev l acc) = some s ∧
      step s = .done (l.reverse ++ acc)) := by
  intro l
  induction l with
  | nil => intro acc h; exact absurd rfl h
  | cons x l2 ih =>
    intro acc _
    cases l2 with
    | nil =>
      refine ⟨fun k hk => absurd hk (by simp), ⟨.rev [x] acc, rfl, ?_⟩⟩
      simpa using step_rev_done
    | cons y r =>
      have hstep : step (.rev (x :: y :: r) acc) = .cont (.rev (y :: r) (x :: acc)) :=
        step_rev_more
      have hlen : (x :: y :: r).length - 1 = ((y :: r).length - 1) + 1 := by
        simp
      have hiter : ∀ k, iterCont (k + 1) (.rev (x :: y :: r) acc) =
          iterCont k (.rev (y :: r) (x :: acc)) := by
        intro k; simp [iterCont, hstep]
      obtain ⟨ih1, ih2⟩ := ih (x :: acc) (by simp)
      constructor
      · intro k hk
        cases k with
        | zero => exact ⟨.rev (x :: y :: r) acc, rfl, ⟨_, hstep⟩⟩
        | succ k2 =>
          rw [hiter]
          exact ih1 k2 (by omega)
      · rw [hlen, hiter]
        obtain ⟨s, hs, hd⟩ := ih2
        exact ⟨s, hs, by simpa [List.append_assoc] using hd⟩

/-- Counterexample to C5 as stated: the finalizer can be handed the
empty sequence (the entry invocation on empty input reaches
`@reverse_tt[[][]]`), and there it terminates in no number of steps: no
rule of `@reverse_tt` matches the empty to-reverse list, so the engine
is stuck rather than producing the (empty) forward sequence. -/
theorem c5_cex :
    step (EState.rev [] []) = .stuck ∧ step (EState.rev [] []) ≠ .done [] :=
  ⟨by decide, by decide⟩

/-- C5 (amended: for N ≥ 1): for every non-empty reverse-order
accumulator sequence of N tokens handed to the finalizer, the finalizer
performs exactly N−1 front-to-front moves — each intermediate state
admitting only the move rule — and the next rule application emits the
forward-order sequence; there is no other termination condition. -/
theorem c5_reverse : ∀ l : List Tok, l ≠ [] →
    (∀ k, k < l.length - 1 →
      ∃ s, iterCont k (.rev l []) = some s ∧ ∃ s2, step s = .cont s2) ∧
    (∃ s, iterCont (l.length - 1) (.rev l []) = some s ∧
      step s = .done l.reverse) := by
  intro l h
  have h2 := revLoop l [] h
  simpa using h2

/-- Witness for C5 on the two-token sequence `b a` (reverse order),
which the finalizer turns into `a b` in exactly one move. -/
theorem c5_witness :
    ([Tok.simple "b", Tok.simple "a"] ≠ ([] : List Tok)) ∧
    (∃ s, iterCont 1 (.rev [Tok.simple "b", Tok.simple "a"] []) = some s ∧
      step s = .done [Tok.simple "a", Tok.simple "b"]) :=
  ⟨by decide, (c5_reverse [Tok.simple "b", Tok.simple "a"] (by decide)).2⟩

/-!
## Claim C7 — delimiter preservation
-/

/-- C7: every engine step that handles a surviving group preserves its
delimiter kind: descending into a group opens a pending block of the
same kind, each merge move keeps the pending block's kind, and promoting
a decoded block back onto the prefix re-wraps it with the same kind; so
a group's delimiter kind in the output equals its kind in the input. -/
theorem c7_delim : ∀ (d : Delim) (m mp : Mode)
    (mf p r mfp pp pfp pf body gb : List Tok) (S : List Frame) (last : Tok),
    (step (.chk (⟨m, mf, p, [], none⟩ :: S) (Tok.group d body :: r)) =
      .cont (.chk (⟨m, [], [], [], none⟩ :: ⟨m, mf, p, r, some (d, [])⟩ :: S) body)) ∧
    (step (.chk (⟨m, [], last :: p, [], none⟩ ::
                 ⟨mp, mfp, pp, pfp, some (d, gb)⟩ :: S) []) =
      .cont (.chk (⟨m, [], p, [], none⟩ ::
                   ⟨mp, mfp, pp, pfp, some (d, last :: gb)⟩ :: S) [])) ∧
    ((m = .laz ∨ dispHead p = none) →
      step (.chk (⟨m, mf, p, pf, some (d, body)⟩ :: S) []) =
        .cont (.chk (⟨m, mf, Tok.group d body :: p, [], none⟩ :: S) pf)) := by
  intro d m mp mf p r mfp pp pfp pf body gb S last
  exact ⟨step_descend, step_merge, fun h => step_promote h⟩

/-- Witness for C7's promotion conjunct at a concrete state: a decoded
square-bracket block is promoted as a square-bracket group. -/
theorem c7_witness :
    (Mode.eag = Mode.laz ∨ dispHead ([Tok.simple "u"] : List Tok) = none) ∧
    step (.chk [⟨.eag, [], [Tok.simple "u"], [], some (.square, [Tok.simple "a"])⟩] []) =
      .cont (.chk [⟨.eag, [], [Tok.group .square [Tok.simple "a"], Tok.simple "u"],
        [], none⟩] []) :=
  ⟨Or.inr (by decide),
    (c7_delim .square .eag .eag [] [Tok.simple "u"] [] [] [] [] []
      [Tok.simple "a"] [] [] (Tok.simple "u")).2.2 (Or.inr (by decide))⟩

/-!
## Claim C10 — outer frames across dispatch and resumption
-/

/-- C10: at a dispatch, every stack level below the top frame (`S`) is
embedded verbatim in the resumption stack handed to the expander, and
`@from_macro` restores exactly those levels: the dispatch changes only
the top frame (dropping the invocation head and the block), and after
resumption the outer frames are identical to those before dispatch. -/
theorem c10_outerFrames : ∀ (mf p pf body exp : List Tok) (d : Delim) (n : Tok)
    (S : List Frame),
    step (.chk (⟨.eag, mf, bangTok :: n :: p, pf, some (d, body)⟩ :: S) []) =
      .disp n body (⟨.eag, mf, p, pf, none⟩ :: S) ∧
    resumeWith (⟨.eag, mf, p, pf, none⟩ :: S) exp =
      some (.chk (⟨.eag, mf, p, [], none⟩ :: S) (exp ++ pf)) := by
  intro mf p pf body exp d n S
  exact ⟨step_disp, rfl⟩

/-!
## Composite runs of the engine

`mergeRun`, `childFinish` and `lazyRun` describe several rule
applications at once: the token-by-token merge of a finished level into
its parent's block, and the verbatim decoding of keyword-free input in
lazy mode.
-/

theorem szT_pos : ∀ t : Tok, 1 ≤ Tok.szT t := by
  intro t; cases t <;> simp [Tok.szT]

theorem noKw_cons {t : Tok} {r : List Tok} (h : noKw (t :: r) = true) :
    Tok.noKwT t = true ∧ kwWin t r = true ∧ noKw r = true := by
  simpa [noKw, Tok.noKwL, Bool.and_eq_true, and_assoc] using h

theorem noKwT_group {d : Delim} {g : List Tok} :
    Tok.noKwT (Tok.group d g) = noKw g := rfl

theorem allBlk_cons_some {m : Mode} {mf p pf : List Tok} {d : Delim}
    {body : List Tok} {S : List Frame} (hS : allBlk S = true) :
    allBlk (⟨m, mf, p, pf, some (d, body)⟩ :: S) = true := by
  simpa [allBlk, List.all_cons] using hS

/-- The merge loop: a finished level's reverse prefix is moved, one token
per rule application, onto the front of the parent's block, un-reversing
it in the process. -/
theorem mergeRun (env : Env) : ∀ (q : List Tok) (m2 m3 : Mode)
    (mf3 p3 pf3 body : List Tok) (d : Delim) (S : List Frame),
    StepsE env
      (.chk (⟨m2, [], q, [], none⟩ :: ⟨m3, mf3, p3, pf3, some (d, body)⟩ :: S) [])
      (.chk (⟨m2, [], [], [], none⟩ ::
             ⟨m3, mf3, p3, pf3, some (d, q.reverse ++ body)⟩ :: S) []) := by
  intro q
  induction q with
  | nil =>
    intro m2 m3 mf3 p3 pf3 body d S
    simpa using StepsE.refl _
  | cons a q2 ih =>
    intro m2 m3 mf3 p3 pf3 body d S
    refine StepsE.cont step_merge ?_
    have heq : (a :: q2).reverse ++ body = q2.reverse ++ (a :: body) := by simp
    rw [heq]
    exact ih m2 m3 mf3 p3 pf3 (a :: body) d S

/-- A finished level is merged into its parent's block and popped. -/
theorem childFinish (env : Env) {q : List Tok} {m2 m3 : Mode}
    {mf3 p3 pf3 body : List Tok} {d : Delim} {S : List Frame}
    (hS : allBlk S = true) :
    StepsE env
      (.chk (⟨m2, [], q, [], none⟩ :: ⟨m3, mf3, p3, pf3, some (d, body)⟩ :: S) [])
      (.chk (⟨m3, mf3, p3, pf3, some (d, q.reverse ++ body)⟩ :: S) []) := by
  refine (mergeRun env q m2 m3 mf3 p3 pf3 body d S).trans ?_
  exact StepsE.cont (step_pop (allBlk_cons_some hS)) (StepsE.refl _)

/-- Lazy-mode decoding of keyword-free input is the deep identity: every
token (and every group, with its contents unchanged) ends up verbatim on
the prefix, in reverse order, and no dispatch ever happens (the run is
derived for every environment at once, in particular `envNone`). -/
theorem lazyRun (env : Env) : ∀ (N : Nat) (inp : List Tok), Tok.szL inp ≤ N →
    noKw inp = true → ∀ (mf p : List Tok) (S : List Frame), allBlk S = true →
    StepsE env (.chk (⟨.laz, mf, p, [], none⟩ :: S) inp)
               (.chk (⟨.laz, mf, inp.reverse ++ p, [], none⟩ :: S) []) := by
  intro N
  induction N with
  | zero =>
    intro inp hsz _ mf p S _
    cases inp with
    | nil => simpa using StepsE.refl _
    | cons t r =>
      exfalso
      have h1 := szT_pos t
      have : Tok.szT t + Tok.szL r ≤ 0 := by simpa [Tok.szL] using hsz
      omega
  | succ N ih =>
    intro inp hsz hkw mf p S hS
    match inp with
    | [] => simpa using StepsE.refl _
    | Tok.group d g :: r =>
      obtain ⟨hkwt, _, hkwr⟩ := noKw_cons hkw
      have hkwg : noKw g = true := by rwa [noKwT_group] at hkwt
      have hszgr : (1 + Tok.szL g) + Tok.szL r ≤ N + 1 := by
        simpa [Tok.szL, Tok.szT] using hsz
      refine StepsE.cont step_descend ?_
      have hchild := ih g (by omega) hkwg [] []
        (⟨.laz, mf, p, r, some (d, [])⟩ :: S) (allBlk_cons_some hS)
      rw [List.append_nil] at hchild
      refine hchild.trans ?_
      have hmerge := @childFinish env g.reverse .laz .laz mf p r [] d S hS
      rw [List.reverse_reverse, List.append_nil] at hmerge
      refine hmerge.trans ?_
      refine StepsE.cont (step_promote (Or.inl rfl)) ?_
      have hrest := ih r (by omega) hkwr mf (Tok.group d g :: p) S hS
      have heq : (Tok.group d g :: r).reverse ++ p = r.reverse ++ (Tok.group d g :: p) := by
        simp
      rw [heq]
      exact hrest
    | Tok.simple s :: r =>
      obtain ⟨_, hkww, hkwr⟩ := noKw_cons hkw
      have hszr : Tok.szL r ≤ N := by
        have : Tok.szT (Tok.simple s) + Tok.szL r ≤ N + 1 := by
          simpa [Tok.szL] using hsz
        simp [Tok.szT] at this; omega
      have hcont : ∀ s3, step (.chk (⟨.laz, mf, p, [], none⟩ :: S) (Tok.simple s :: r)) =
          .cont s3 → StepsE env s3
            (.chk (⟨.laz, mf, (Tok.simple s :: r).reverse ++ p, [], none⟩ :: S) []) →
          StepsE env (.chk (⟨.laz, mf, p, [], none⟩ :: S) (Tok.simple s :: r))
            (.chk (⟨.laz, mf, (Tok.simple s :: r).reverse ++ p, [], none⟩ :: S) []) :=
        fun s3 h1 h2 => StepsE.cont h1 h2
      have hrest := ih r hszr hkwr mf (Tok.simple s :: p) S hS
      have heq : (Tok.simple s :: r).reverse ++ p = r.reverse ++ (Tok.simple s :: p) := by
        simp
      cases hbg : bangGroupHead r with
      | false =>
        refine StepsE.cont (step_push_nw hbg) ?_
        rw [heq]; exact hrest
      | true =>
        match r, hbg with
        | Tok.simple s2 :: Tok.group d b :: r2, hbg =>
          have hs2 : s2 = "!" := by simpa [bangGroupHead] using hbg
          subst hs2
          have hnkw : (s == "eager" || s == "lazy") = false := by
            simpa [kwWin] using hkww
          simp only [Bool.or_eq_false_iff, beq_eq_false_iff_ne, ne_eq] at hnkw
          refine StepsE.cont (step_push_kwmiss ?_ ?_) ?_
          · show ¬ s = Mode.laz.kwSame
            simpa [Mode.kwSame] using hnkw.2
          · show ¬ (s = Mode.laz.kwOpp ∧ mf = [])
            simp [Mode.kwOpp]
            intro hc; exact absurd hc hnkw.1
          · rw [heq]; exact hrest

/-!
## The simulation of call-by-value expansion by the engine
-/

theorem bang_free_cons {a : Tok} (h : a ≠ bangTok) (l : List Tok) :
    dispHead (a :: l) = none := by
  cases a with
  | group d g => rfl
  | simple s =>
    have hs : ¬ s = "!" := fun hh => h (by simp [bangTok, hh])
    cases l with
    | nil => rfl
    | cons b l2 => simp [dispHead, hs]

theorem dispHead_rev_append {g p : List Tok} (hg : ¬ g.getLast? = some bangTok)
    (hp : dispHead p = none) : dispHead (g.reverse ++ p) = none := by
  cases hgr : g.reverse with
  | nil => simpa using hp
  | cons a l =>
    have ha : a ≠ bangTok := by
      intro haa
      apply hg
      rw [← List.head?_reverse, hgr, haa]
      rfl
    simpa using bang_free_cons ha (l ++ p)

theorem espec_succ_nil (env : Env) (f : Nat) : espec env (f + 1) [] = some [] := rfl

theorem espec_nil_out {env : Env} : ∀ {f : Nat} {r : List Tok},
    espec env f [] = some r → r = [] := by
  intro f r h
  cases f with
  | zero => exact absurd h (by simp [espec])
  | succ f =>
    rw [espec_succ_nil] at h
    exact (Option.some_injective _ h).symm

theorem espec_inv3 (env : Env) (f : Nat) {n s2 : String} {d : Delim}
    {g rest : List Tok} :
    espec env (f + 1) (Tok.simple n :: Tok.simple s2 :: Tok.group d g :: rest) =
      if n = "!" then none
      else if s2 = "!" then
        if n = "eager" then espec env f (g ++ rest)
        else if n = "lazy" then
          if noKw g && !(g.getLast? == some bangTok) then
            (espec env f rest).map (fun r => g ++ r)
          else none
        else
          match espec env f g with
          | none => none
          | some args =>
            match env (Tok.simple n) args with
            | none => none
            | some rep => espec env f (rep ++ rest)
      else (espec env f (Tok.simple s2 :: Tok.group d g :: rest)).map
        (fun r => Tok.simple n :: r) := rfl

theorem espec_ord_nil (env : Env) (f : Nat) {n : String} :
    espec env (f + 1) [Tok.simple n] =
      if n = "!" then none else (espec env f []).map (fun r => Tok.simple n :: r) := rfl

theorem espec_ord2 (env : Env) (f : Nat) {n s2 : String} :
    espec env (f + 1) [Tok.simple n, Tok.simple s2] =
      if n = "!" then none
      else (espec env f [Tok.simple s2]).map (fun r => Tok.simple n :: r) := rfl

theorem espec_ord3 (env : Env) (f : Nat) {n s2 s3 : String} {r3 : List Tok} :
    espec env (f + 1) (Tok.simple n :: Tok.simple s2 :: Tok.simple s3 :: r3) =
      if n = "!" then none
      else (espec env f (Tok.simple s2 :: Tok.simple s3 :: r3)).map
        (fun r => Tok.simple n :: r) := rfl

theorem espec_ordg (env : Env) (f : Nat) {n : String} {d : Delim} {g r2 : List Tok} :
    espec env (f + 1) (Tok.simple n :: Tok.group d g :: r2) =
      if n = "!" then none
      else (espec env f (Tok.group d g :: r2)).map (fun r => Tok.simple n :: r) := rfl

theorem espec_group (env : Env) (f : Nat) {d : Delim} {g rest : List Tok} :
    espec env (f + 1) (Tok.group d g :: rest) =
      match espec env f g, espec env f rest with
      | some g2, some r2 => some (Tok.group d g2 :: r2)
      | _, _ => none := rfl

/-- Common case of the simulation: an ordinary simple token is pushed
onto the prefix and decoding continues. -/
theorem especSimPush (env : Env) {f : Nat}
    (ih : ∀ (inp out : List Tok), espec env f inp = some out →
      ∀ (p : List Tok) (S : List Frame), allBlk S = true → dispHead p = none →
      ∃ m2, StepsE env (.chk (⟨.eag, [], p, [], none⟩ :: S) inp)
                       (.chk (⟨m2, [], out.reverse ++ p, [], none⟩ :: S) []))
    {n : String} {rest r2 p : List Tok} {S : List Frame}
    (hesp : espec env f rest = some r2) (hn : ¬ n = "!")
    (hbg : bangGroupHead rest = false) (hS : allBlk S = true)
    (_hp : dispHead p = none) :
    ∃ m2, StepsE env (.chk (⟨.eag, [], p, [], none⟩ :: S) (Tok.simple n :: rest))
      (.chk (⟨m2, [], (Tok.simple n :: r2).reverse ++ p, [], none⟩ :: S) []) := by
  have hp2 : dispHead (Tok.simple n :: p) = none :=
    bang_free_cons (by simp [bangTok, hn]) p
  obtain ⟨m2, hrun⟩ := ih rest r2 hesp (Tok.simple n :: p) S hS hp2
  refine ⟨m2, StepsE.cont (step_push_nw hbg) ?_⟩
  have heq : (Tok.simple n :: r2).reverse ++ p = r2.reverse ++ (Tok.simple n :: p) := by
    simp
  rw [heq]; exact hrun

/-- Main simulation: whenever the reference call-by-value expansion
`espec` gives a result for the remaining input, the engine — in eager
mode with empty mode-suffix, empty postfix and no pending block, over
any stack of open blocks, with any invocation-free prefix — decodes that
input to exactly the reverse of that result on its prefix. -/
theorem especSim (env : Env) : ∀ (f : Nat) (inp out : List Tok),
    espec env f inp = some out →
    ∀ (p : List Tok) (S : List Frame), allBlk S = true → dispHead p = none →
    ∃ m2, StepsE env (.chk (⟨.eag, [], p, [], none⟩ :: S) inp)
                     (.chk (⟨m2, [], out.reverse ++ p, [], none⟩ :: S) []) := by
  intro f
  induction f with
  | zero => intro inp out h; exact absurd h (by simp [espec])
  | succ f ih =>
    intro inp out h p S hS hp
    match inp with
    | [] =>
      have hout : out = [] := by
        rw [espec_succ_nil] at h
        exact (Option.some_injective _ h).symm
      subst hout
      exact ⟨.eag, by simpa using StepsE.refl _⟩
    | Tok.simple n :: Tok.simple s2 :: Tok.group d g :: rest =>
      rw [espec_inv3] at h
      by_cases hn : n = "!"
      · rw [if_pos hn] at h; exact absurd h (by simp)
      rw [if_neg hn] at h
      by_cases hs2 : s2 = "!"
      · subst hs2
        rw [if_pos rfl] at h
        by_cases he : n = "eager"
        · -- same-mode keyword: identity unwrap
          subst he
          rw [if_pos rfl] at h
          obtain ⟨m2, hrun⟩ := ih (g ++ rest) out h p S hS hp
          exact ⟨m2, StepsE.cont (step_unwrap (m := .eag)) hrun⟩
        rw [if_neg he] at h
        by_cases hl : n = "lazy"
        · -- mode-switch region
          subst hl
          rw [if_pos rfl] at h
          by_cases hg : (noKw g && !(g.getLast? == some bangTok)) = true
          · rw [if_pos hg] at h
            rw [Option.map_eq_some'] at h
            obtain ⟨r2, hr2, hout⟩ := h
            have hg2 := hg
            rw [Bool.and_eq_true] at hg2
            obtain ⟨hgkw, hgend⟩ := hg2
            have hgend2 : ¬ g.getLast? = some bangTok := by simpa using hgend
            have hsw := @step_switch .eag p rest S d g (by decide)
            have hlz := lazyRun env (Tok.szL g) g le_rfl hgkw rest p S hS
            cases rest with
            | nil =>
              have hr20 : r2 = [] := espec_nil_out hr2
              subst hr20
              refine ⟨.laz, StepsE.cont hsw (hlz.trans ?_)⟩
              rw [← hout]
              simpa using StepsE.refl _
            | cons x xs =>
              have hmf : (x :: xs) ≠ ([] : List Tok) := by simp
              have hpr : dispHead (g.reverse ++ p) = none :=
                dispHead_rev_append hgend2 hp
              obtain ⟨m2, hrun⟩ := ih (x :: xs) r2 hr2 (g.reverse ++ p) S hS hpr
              refine ⟨m2, StepsE.cont hsw (hlz.trans
                (StepsE.cont (step_mfix hmf) ?_))⟩
              have heq : out.reverse ++ p = r2.reverse ++ (g.reverse ++ p) := by
                rw [← hout]; simp
              rw [heq]
              exact hrun
          · rw [if_neg hg] at h; exact absurd h (by simp)
        · -- invocation dispatch
          rw [if_neg hl] at h
          cases hargs : espec env f g with
          | none => rw [hargs] at h; exact absurd h (by simp)
          | some args =>
            rw [hargs] at h
            have h2 : (match env (Tok.simple n) args with
                | none => none
                | some rep => espec env f (rep ++ rest)) = some out := h
            cases henv : env (Tok.simple n) args with
            | none => rw [henv] at h2; exact absurd h2 (by simp)
            | some rep =>
              rw [henv] at h2
              have h3 : espec env f (rep ++ rest) = some out := h2
              obtain ⟨mc, hchild⟩ := ih g args hargs []
                (⟨.eag, [], bangTok :: Tok.simple n :: p, rest, some (d, [])⟩ :: S)
                (allBlk_cons_some hS) rfl
              rw [List.append_nil] at hchild
              have hfin := @childFinish env args.reverse mc .eag []
                (bangTok :: Tok.simple n :: p) rest [] d S hS
              rw [List.reverse_reverse, List.append_nil] at hfin
              obtain ⟨m2, hrun⟩ := ih (rep ++ rest) out h3 p S hS hp
              refine ⟨m2, ?_⟩
              refine StepsE.cont (step_push_kwmiss (by simpa [Mode.kwSame] using he)
                ?_) ?_
              · simp only [Mode.kwOpp]
                intro hc
                exact absurd hc.1 hl
              refine StepsE.cont (step_push_nw rfl) ?_
              refine StepsE.cont step_descend ?_
              refine hchild.trans (hfin.trans ?_)
              exact StepsE.disp step_disp henv rfl hrun
      · -- the second token is not the call marker: `n` is ordinary
        rw [if_neg hs2] at h
        rw [Option.map_eq_some'] at h
        obtain ⟨r2, hr2, hout⟩ := h
        subst hout
        exact especSimPush env ih hr2 hn (by simp [bangGroupHead, hs2]) hS hp
    | [Tok.simple n] =>
      rw [espec_ord_nil] at h
      by_cases hn : n = "!"
      · rw [if_pos hn] at h; exact absurd h (by simp)
      rw [if_neg hn, Option.map_eq_some'] at h
      obtain ⟨r2, hr2, hout⟩ := h
      subst hout
      exact especSimPush env ih hr2 hn rfl hS hp
    | [Tok.simple n, Tok.simple s2] =>
      rw [espec_ord2] at h
      by_cases hn : n = "!"
      · rw [if_pos hn] at h; exact absurd h (by simp)
      rw [if_neg hn, Option.map_eq_some'] at h
      obtain ⟨r2, hr2, hout⟩ := h
      subst hout
      exact especSimPush env ih hr2 hn rfl hS hp
    | Tok.simple n :: Tok.simple s2 :: Tok.simple s3 :: r3 =>
      rw [espec_ord3] at h
      by_cases hn : n = "!"
      · rw [if_pos hn] at h; exact absurd h (by simp)
      rw [if_neg hn, Option.map_eq_some'] at h
      obtain ⟨r2, hr2, hout⟩ := h
      subst hout
      exact especSimPush env ih hr2 hn rfl hS hp
    | Tok.simple n :: Tok.group d g :: r2 =>
      rw [espec_ordg] at h
      by_cases hn : n = "!"
      · rw [if_pos hn] at h; exact absurd h (by simp)
      rw [if_neg hn, Option.map_eq_some'] at h
      obtain ⟨r3, hr3, hout⟩ := h
      subst hout
      exact especSimPush env ih hr3 hn rfl hS hp
    | Tok.group d g :: rest =>
      rw [espec_group] at h
      cases hg : espec env f g with
      | none => rw [hg] at h; exact absurd h (by simp)
      | some g2 =>
        rw [hg] at h
        cases hr : espec env f rest with
        | none => rw [hr] at h; exact absurd h (by simp)
        | some r2 =>
          rw [hr] at h
          have hout : out = Tok.group d g2 :: r2 := (Option.some_injective _ h).symm
          subst hout
          obtain ⟨mc, hchild⟩ := ih g g2 hg []
            (⟨.eag, [], p, rest, some (d, [])⟩ :: S) (allBlk_cons_some hS) rfl
          rw [List.append_nil] at hchild
          have hfin := @childFinish env g2.reverse mc .eag [] p rest [] d S hS
          rw [List.reverse_reverse, List.append_nil] at hfin
          have hp2 : dispHead (Tok.group d g2 :: p) = none :=
            bang_free_cons (by simp [bangTok]) p
          obtain ⟨m2, hrun⟩ := ih rest r2 hr (Tok.group d g2 :: p) S hS hp2
          refine ⟨m2, ?_⟩
          refine StepsE.cont step_descend ?_
          refine hchild.trans (hfin.trans ?_)
          refine StepsE.cont (step_promote (Or.inr hp)) ?_
          have heq : (Tok.group d g2 :: r2).reverse ++ p =
              r2.reverse ++ (Tok.group d g2 :: p) := by simp
          rw [heq]
          exact hrun

theorem iterCont_steps {env : Env} : ∀ (k : Nat) (s s2 : EState),
    iterCont k s = some s2 → StepsE env s s2 := by
  intro k
  induction k with
  | zero =>
    intro s s2 h
    rw [show iterCont 0 s = some s from rfl] at h
    rw [← Option.some_injective _ h]
    exact StepsE.refl s
  | succ k ih =>
    intro s s2 h
    cases hst : step s with
    | cont s3 =>
      have h2 : iterCont k s3 = some s2 := by
        rw [iterCont, hst] at h; exact h
      exact StepsE.cont hst (ih s3 s2 h2)
    | disp n args fr => rw [iterCont, hst] at h; cases h
    | done out => rw [iterCont, hst] at h; cases h
    | stuck => rw [iterCont, hst] at h; cases h

/-- Corollary at the entry state: a non-empty `espec` result is exactly
what the engine, run from the entry invocation, emits. -/
theorem especRuns {env : Env} {f : Nat} {inp out : List Tok}
    (h : espec env f inp = some out) (hne : out ≠ []) :
    RunsTo env (entry inp) out := by
  obtain ⟨m2, hrun⟩ := especSim env f inp out h [] [] rfl rfl
  rw [List.append_nil] at hrun
  obtain ⟨-, h2⟩ := revLoop out.reverse [] (by simpa using hne)
  obtain ⟨s, hs, hd⟩ := h2
  refine ⟨s, ?_, ?_⟩
  · exact hrun.trans (StepsE.cont step_fin (iterCont_steps _ _ _ hs))
  · simpa using hd

/-!
## Claim C1 — eager (call-by-value) expansion order
-/

/-- Counterexample to C1 as stated: the empty input sequence consists
only of ordinary tokens and eager-enabled invocations (zero of them) and
expands, in call-by-value order, to the empty sequence — but the entry
invocation does not produce it: the engine reaches `@reverse_tt[[][]]`,
where no rule matches, so the host fails instead of emitting the empty
result. -/
theorem c1_cex :
    espec envNone 1 [] = some [] ∧ ¬ RunsTo envNone (entry []) [] := by
  refine ⟨by decide, ?_⟩
  rintro ⟨s, hsteps, hdone⟩
  have key : ∀ a b : EState, StepsE envNone a b →
      (a = entry [] ∨ a = .rev [] []) → (b = entry [] ∨ b = .rev [] []) := by
    intro a b hab
    induction hab with
    | refl => exact id
    | cont hst _ ih =>
      intro ha
      apply ih
      rcases ha with rfl | rfl
      · right
        have he : step (entry []) = .cont (.rev [] []) := by decide
        rw [he] at hst
        exact (StepRes.cont.inj hst).symm
      · exfalso
        have he : step (EState.rev [] []) = .stuck := by decide
        rw [he] at hst
        cases hst
    | disp hst _ _ _ ih =>
      intro ha
      exfalso
      rcases ha with rfl | rfl
      · have he : step (entry []) = .cont (.rev [] []) := by decide
        rw [he] at hst; cases hst
      · have he : step (EState.rev [] []) = .stuck := by decide
        rw [he] at hst; cases hst
  rcases key _ _ hsteps (Or.inl rfl) with rfl | rfl
  · have he : step (entry []) = .cont (.rev [] []) := by decide
    rw [he] at hdone; cases hdone
  · have he : step (EState.rev [] []) = .stuck := by decide
    rw [he] at hdone; cases hdone

/-- C1 (amended: provided the fully-expanded result is non-empty): for
every input consisting only of ordinary tokens and eager-enabled
invocations (no mode-switch regions, hypothesis `noKw`), whenever the
reference call-by-value (innermost-first) expansion yields a non-empty
result, the entry invocation — a single frame with mode Expand and all
accumulators empty — produces exactly that token sequence; in
particular, `eager!{2 plus_1!() plus_1!()}` with `plus_1!()` registered
to expand to `+ 1` produces the token sequence `2 + 1 + 1`. -/
theorem c1_eagerOrder :
    (∀ (env : Env) (f : Nat) (inp out : List Tok), noKw inp = true →
      espec env f inp = some out → out ≠ [] → RunsTo env (entry inp) out) ∧
    run envP 60 (entry [Tok.simple "2",
        Tok.simple "plus_1", bangTok, Tok.group .round [],
        Tok.simple "plus_1", bangTok, Tok.group .round []]) =
      some [Tok.simple "2", Tok.simple "+", Tok.simple "1",
            Tok.simple "+", Tok.simple "1"] :=
  ⟨fun _ _ _ _ _ h hne => especRuns h hne, by decide⟩

/-- Witness for C1 on the one-token input `a`. -/
theorem c1_witness :
    (noKw [Tok.simple "a"] = true) ∧
    (espec envNone 2 [Tok.simple "a"] = some [Tok.simple "a"]) ∧
    ([Tok.simple "a"] ≠ ([] : List Tok)) ∧
    RunsTo envNone (entry [Tok.simple "a"]) [Tok.simple "a"] :=
  ⟨by decide, by decide, by decide,
    c1_eagerOrder.1 envNone 2 [Tok.simple "a"] [Tok.simple "a"]
      (by decide) (by decide) (by decide)⟩

/-!
## Claim C6 — invocations inside a Restrict region stay verbatim
-/

/-- C6: an invocation inside a Restrict (`lazy!`) region whose body is
free of mode keywords is never dispatched, and appears verbatim — name,
call marker and argument group — in the final output.  First conjunct:
the whole region is decoded under the environment with no expanders at
all (`envNone`), so no dispatch can occur in it (and since `step` is a
function, this is the engine's unique execution path under every
environment); every group is promoted to the prefix with its contents
unchanged, giving the body verbatim in reverse.  Second conjunct: the
full entry run on `lazy ! ⟨body⟩ · post` outputs the body verbatim
followed by the expansion of the tokens after the region. -/
theorem c6_lazyVerbatim : ∀ (d : Delim) (body post postOut : List Tok)
    (env : Env) (f : Nat),
    noKw body = true → ¬ body.getLast? = some bangTok →
    espec env f post = some postOut → body ++ postOut ≠ [] →
    (StepsE envNone (.chk [⟨.laz, post, [], [], none⟩] body)
            (.chk [⟨.laz, post, body.reverse, [], none⟩] [])) ∧
    RunsTo env (entry (Tok.simple "lazy" :: bangTok :: Tok.group d body :: post))
      (body ++ postOut) := by
  intro d body post postOut env f hkw hend hpost hne
  constructor
  · have h := lazyRun envNone (Tok.szL body) body le_rfl hkw post [] [] rfl
    rw [List.append_nil] at h
    exact h
  · have hge : (body.getLast? == some bangTok) = false := by simpa using hend
    have hesp : espec env (f + 1)
        (Tok.simple "lazy" :: bangTok :: Tok.group d body :: post) =
        some (body ++ postOut) := by
      rw [show (bangTok : Tok) = Tok.simple "!" from rfl, espec_inv3]
      rw [if_neg (by decide), if_pos rfl, if_neg (by decide), if_pos rfl]
      rw [hkw, hge]
      rw [if_pos (by decide), hpost]
      rfl
    exact especRuns hesp hne

/-- Witness for C6: the region `lazy!{f!()}` — its invocation `f!()`
appears verbatim in the output even though no expander is registered. -/
theorem c6_witness :
    (noKw [Tok.simple "f", bangTok, Tok.group .round []] = true) ∧
    (¬ [Tok.simple "f", bangTok, Tok.group .round []].getLast? = some bangTok) ∧
    (espec envNone 1 [] = some []) ∧
    ([Tok.simple "f", bangTok, Tok.group .round []] ++ [] ≠ ([] : List Tok)) ∧
    RunsTo envNone
      (entry [Tok.simple "lazy", bangTok,
        Tok.group .curly [Tok.simple "f", bangTok, Tok.group .round []]])
      ([Tok.simple "f", bangTok, Tok.group .round []] ++ []) :=
  ⟨by decide, by decide, by decide, by decide,
    (c6_lazyVerbatim .curly [Tok.simple "f", bangTok, Tok.group .round []] [] []
      envNone 1 (by decide) (by decide) (by decide) (by decide)).2⟩

/-!
## Claim C4 — progress of the engine

The invariant `WFs` holds at the entry state and is preserved by every
transition (including dispatch/resumption with an arbitrary
replacement); on a `WFs` state the only configuration on which no rule
of `eager_internal!` applies is the finalizer handed an empty result.
-/

theorem step_hd_stuck {m : Mode} {mf p pf : List Tok}
    {blk : Option (Delim × List Tok)} {S : List Frame} {t : Tok} {r : List Tok}
    (hc : blk ≠ none ∨ pf ≠ []) :
    step (.chk (⟨m, mf, p, pf, blk⟩ :: S) (t :: r)) = .stuck := by
  simp only [step]
  rw [if_pos hc]

theorem step_post_stuck {m : Mode} {mf p pf : List Tok} {S : List Frame}
    (hpf : pf ≠ []) :
    step (.chk (⟨m, mf, p, pf, none⟩ :: S) []) = .stuck := by
  simp only [step]
  rw [if_neg hpf]

theorem step_merge_stuck {m m3 : Mode} {last : Tok} {p2 mf3 p3 pf3 : List Tok}
    {S2 : List Frame} :
    step (.chk (⟨m, [], last :: p2, [], none⟩ ::
                ⟨m3, mf3, p3, pf3, none⟩ :: S2) []) = .stuck := by
  simp [step]

theorem step_pop_stuck {m : Mode} {G : Frame} {S2 : List Frame}
    (hall : allBlk (G :: S2) = false) :
    step (.chk (⟨m, [], [], [], none⟩ :: G :: S2) []) = .stuck := by
  simp [step, hall]

theorem wf_chk4 {m2 : Mode} {mf2 p2 inp2 : List Tok} {S : List Frame}
    (h1 : ∀ fr ∈ S, fr.blk ≠ none)
    (h2 : ∀ fr ∈ S, fr.blk = none → fr.post = []) :
    WFs (.chk (⟨m2, mf2, p2, [], none⟩ :: S) inp2) := by
  refine ⟨h1, ?_, fun _ => rfl⟩
  intro fr hfr hblk
  rcases List.mem_cons.mp hfr with rfl | hmem
  · rfl
  · exact h2 fr hmem hblk

theorem dispHead_some : ∀ {p : List Tok} {n : Tok} {p2 : List Tok},
    dispHead p = some (n, p2) → p = bangTok :: n :: p2 := by
  intro p n p2 h
  match p with
  | [] => simp [dispHead] at h
  | [Tok.simple s] => simp [dispHead] at h
  | [Tok.group d g] => simp [dispHead] at h
  | Tok.group d g :: x :: rest => simp [dispHead] at h
  | Tok.simple s :: x :: rest =>
    by_cases hs : s = "!"
    · simp only [dispHead, if_pos hs, Option.some_inj, Prod.mk.injEq] at h
      obtain ⟨rfl, rfl⟩ := h
      rw [hs]
      rfl
    · simp [dispHead, hs] at h

theorem allBlk_of_mem {S : List Frame} (h : ∀ fr ∈ S, fr.blk ≠ none) :
    allBlk S = true := by
  simp only [allBlk, List.all_eq_true]
  intro fr hfr
  simpa [Option.isSome_iff_ne_none] using h fr hfr

theorem step_simple_progress (m : Mode) (mf p : List Tok) (S : List Frame)
    (s : String) (r : List Tok) :
    ∃ m2 mf2 p2 inp2,
      step (.chk (⟨m, mf, p, [], none⟩ :: S) (Tok.simple s :: r)) =
        .cont (.chk (⟨m2, mf2, p2, [], none⟩ :: S) inp2) := by
  match r with
  | [] => exact ⟨_, _, _, _, step_push_nw rfl⟩
  | Tok.group d b :: r2 => exact ⟨_, _, _, _, step_push_nw rfl⟩
  | [Tok.simple a] => exact ⟨_, _, _, _, step_push_nw rfl⟩
  | Tok.simple a :: Tok.simple a2 :: r2 => exact ⟨_, _, _, _, step_push_nw rfl⟩
  | Tok.simple a :: Tok.group d b :: r2 =>
    by_cases ha : a = "!"
    · subst ha
      by_cases h1 : s = m.kwSame
      · subst h1
        exact ⟨m, mf, p, b ++ r2, step_unwrap⟩
      · by_cases h2 : s = m.kwOpp ∧ mf = []
        · obtain ⟨hs2, hmf⟩ := h2
          subst hs2; subst hmf
          exact ⟨m.flip, r2, p, b, step_switch (by cases m <;> decide)⟩
        · exact ⟨_, _, _, _, step_push_kwmiss h1 h2⟩
    · exact ⟨_, _, _, _, step_push_nw (by simp [bangGroupHead, ha])⟩

theorem step_blk_cases (m : Mode) (mf p pf : List Tok) (d : Delim)
    (body : List Tok) (S : List Frame) :
    (∃ n p2, p = bangTok :: n :: p2 ∧ m = .eag ∧
      step (.chk (⟨m, mf, p, pf, some (d, body)⟩ :: S) []) =
        .disp n body (⟨.eag, mf, p2, pf, none⟩ :: S)) ∨
    step (.chk (⟨m, mf, p, pf, some (d, body)⟩ :: S) []) =
      .cont (.chk (⟨m, mf, Tok.group d body :: p, [], none⟩ :: S) pf) := by
  cases m with
  | laz => exact Or.inr (step_promote (Or.inl rfl))
  | eag =>
    cases hdp : dispHead p with
    | none => exact Or.inr (step_promote (Or.inr hdp))
    | some np =>
      obtain ⟨n, p2⟩ := np
      have hp := dispHead_some hdp
      subst hp
      exact Or.inl ⟨n, p2, rfl, rfl, step_disp⟩

/-- The entry state satisfies the invariant. -/
theorem wf_entry (inp : List Tok) : WFs (entry inp) := by
  refine ⟨?_, ?_, fun _ => rfl⟩
  · intro fr hfr
    exact absurd hfr (by simp)
  · intro fr hfr _
    rcases List.mem_cons.mp hfr with rfl | hmem
    · rfl
    · exact absurd hmem (by simp)

/-- The invariant is preserved by every internal transition. -/
theorem wf_cont : ∀ {s s2 : EState}, WFs s → step s = .cont s2 → WFs s2 := by
  intro s s2 hwf h
  cases s with
  | rev l acc =>
    cases l with
    | nil => rw [(rfl : step (.rev [] acc) = .stuck)] at h; cases h
    | cons x r =>
      cases r with
      | nil => rw [step_rev_done] at h; cases h
      | cons y r2 =>
        rw [step_rev_more] at h
        rw [← StepRes.cont.inj h]
        exact fun habs => absurd habs (by simp)
  | chk stack inp =>
    cases stack with
    | nil =>
      rw [(rfl : step (.chk [] inp) = .stuck)] at h; cases h
    | cons F S =>
      obtain ⟨m, mf, p, pf, blk⟩ := F
      obtain ⟨h1, h2, h3⟩ := hwf
      cases inp with
      | cons t r =>
        have hblk : blk = none := h3 (by simp)
        subst hblk
        have hpf : pf = [] := h2 _ (List.mem_cons_self _ _) rfl
        subst hpf
        cases t with
        | group d b =>
          rw [step_descend] at h
          rw [← StepRes.cont.inj h]
          refine ⟨?_, ?_, fun _ => rfl⟩
          · intro fr hfr
            rcases List.mem_cons.mp hfr with rfl | hmem
            · simp
            · exact h1 fr hmem
          · intro fr hfr hblk2
            rcases List.mem_cons.mp hfr with rfl | hfr2
            · rfl
            rcases List.mem_cons.mp hfr2 with rfl | hfr3
            · cases hblk2
            · exact h2 fr (List.mem_cons_of_mem _ hfr3) hblk2
        | simple st =>
          obtain ⟨m2, mf2, p2, inp2, heq⟩ := step_simple_progress m mf p S st r
          rw [heq] at h
          rw [← StepRes.cont.inj h]
          exact wf_chk4 h1 (fun fr hfr => h2 fr (List.mem_cons_of_mem _ hfr))
      | nil =>
        cases blk with
        | some db =>
          obtain ⟨d, body⟩ := db
          rcases step_blk_cases m mf p pf d body S with ⟨n, p2, hp, hm, heq⟩ | heq
          · rw [heq] at h; cases h
          · rw [heq] at h
            rw [← StepRes.cont.inj h]
            exact wf_chk4 h1 (fun fr hfr => h2 fr (List.mem_cons_of_mem _ hfr))
        | none =>
          have hpf : pf = [] := h2 _ (List.mem_cons_self _ _) rfl
          subst hpf
          by_cases hmf : mf = []
          · subst hmf
            cases p with
            | cons last p2 =>
              cases S with
              | nil =>
                rw [step_fin] at h
                rw [← StepRes.cont.inj h]
                exact fun habs => absurd habs (by simp)
              | cons G S2 =>
                obtain ⟨m3, mf3, p3, pf3, blk3⟩ := G
                cases blk3 with
                | none => exact absurd rfl (h1 _ (List.mem_cons_self _ _))
                | some db3 =>
                  obtain ⟨d3, gb3⟩ := db3
                  rw [step_merge] at h
                  rw [← StepRes.cont.inj h]
                  refine ⟨?_, ?_, fun habs => absurd rfl habs⟩
                  · intro fr hfr
                    rcases List.mem_cons.mp hfr with rfl | hmem
                    · simp
                    · exact h1 fr (List.mem_cons_of_mem _ hmem)
                  · intro fr hfr hblk2
                    rcases List.mem_cons.mp hfr with rfl | hfr2
                    · rfl
                    rcases List.mem_cons.mp hfr2 with rfl | hfr3
                    · cases hblk2
                    · exact h2 fr
                        (List.mem_cons_of_mem _ (List.mem_cons_of_mem _ hfr3)) hblk2
            | nil =>
              cases S with
              | nil =>
                rw [step_fin] at h
                rw [← StepRes.cont.inj h]
                exact fun _ => rfl
              | cons G S2 =>
                rw [step_pop (allBlk_of_mem h1)] at h
                rw [← StepRes.cont.inj h]
                refine ⟨?_, ?_, fun habs => absurd rfl habs⟩
                · intro fr hfr
                  exact h1 fr (List.mem_cons_of_mem _ hfr)
                · intro fr hfr
                  exact h2 fr (List.mem_cons_of_mem _ hfr)
          · rw [step_mfix hmf] at h
            rw [← StepRes.cont.inj h]
            exact wf_chk4 h1 (fun fr hfr => h2 fr (List.mem_cons_of_mem _ hfr))

/-- A dispatch can only arise from the dispatch rules, with the
resumption stack determined by the top frame. -/
theorem step_disp_inv : ∀ {s : EState} {n : Tok} {args : List Tok}
    {fr : List Frame}, step s = .disp n args fr →
    ∃ mf p2 pf d S,
      s = .chk (⟨.eag, mf, bangTok :: n :: p2, pf, some (d, args)⟩ :: S) [] ∧
      fr = ⟨.eag, mf, p2, pf, none⟩ :: S := by
  intro s n args fr h
  cases s with
  | rev l acc =>
    cases l with
    | nil => rw [(rfl : step (.rev [] acc) = .stuck)] at h; cases h
    | cons x r =>
      cases r with
      | nil => rw [step_rev_done] at h; cases h
      | cons y r2 => rw [step_rev_more] at h; cases h
  | chk stack inp =>
    cases stack with
    | nil => rw [(rfl : step (.chk [] inp) = .stuck)] at h; cases h
    | cons F S =>
      obtain ⟨m, mf, p, pf, blk⟩ := F
      cases inp with
      | cons t r =>
        by_cases hc : blk ≠ none ∨ pf ≠ []
        · rw [step_hd_stuck hc] at h; cases h
        · push_neg at hc
          obtain ⟨hblk, hpf⟩ := hc
          subst hblk
          subst hpf
          cases t with
          | group d b => rw [step_descend] at h; cases h
          | simple st =>
            obtain ⟨m2, mf2, p2, inp2, heq⟩ := step_simple_progress m mf p S st r
            rw [heq] at h; cases h
      | nil =>
        cases blk with
        | some db =>
          obtain ⟨d, body⟩ := db
          rcases step_blk_cases m mf p pf d body S with ⟨n2, p2, hp, hm, heq⟩ | heq
          · subst hm
            subst hp
            rw [heq] at h
            obtain ⟨hn, hb, hf⟩ := StepRes.disp.inj h
            subst hn; subst hb; subst hf
            exact ⟨mf, p2, pf, d, S, rfl, rfl⟩
          · rw [heq] at h; cases h
        | none =>
          by_cases hpf : pf = []
          · subst hpf
            by_cases hmf : mf = []
            · subst hmf
              cases p with
              | cons last p2 =>
                cases S with
                | nil => rw [step_fin] at h; cases h
                | cons G S2 =>
                  obtain ⟨m3, mf3, p3, pf3, blk3⟩ := G
                  cases blk3 with
                  | some db3 =>
                    obtain ⟨d3, gb3⟩ := db3
                    rw [step_merge] at h; cases h
                  | none => rw [step_merge_stuck] at h; cases h
              | nil =>
                cases S with
                | nil => rw [step_fin] at h; cases h
                | cons G S2 =>
                  by_cases hall : allBlk (G :: S2) = true
                  · rw [step_pop hall] at h; cases h
                  · rw [step_pop_stuck (by simpa using hall)] at h; cases h
            · rw [step_mfix hmf] at h; cases h
          · rw [step_post_stuck hpf] at h; cases h

/-- The invariant is preserved across dispatch and resumption, whatever
replacement the expander produces. -/
theorem wf_disp : ∀ {s : EState} {n : Tok} {args exp : List Tok}
    {fr : List Frame} {s3 : EState}, WFs s →
    step s = .disp n args fr → resumeWith fr exp = some s3 → WFs s3 := by
  intro s n args exp fr s3 hwf hd hres
  obtain ⟨mf, p2, pf, d, S, rfl, rfl⟩ := step_disp_inv hd
  obtain ⟨h1, h2, _⟩ := hwf
  have hs3 : (.chk (⟨.eag, mf, p2, [], none⟩ :: S) (exp ++ pf) : EState) = s3 :=
    Option.some_injective _ hres
  rw [← hs3]
  exact wf_chk4 h1 (fun fr2 hfr => h2 fr2 (List.mem_cons_of_mem _ hfr))

/-- The invariant holds at every reachable state. -/
theorem reach_wf : ∀ {a b : EState}, ReachAny a b → WFs a → WFs b := by
  intro a b h
  induction h with
  | refl => exact id
  | cont hst _ ih => exact fun hwf => ih (wf_cont hwf hst)
  | disp hst hres _ ih => exact fun hwf => ih (wf_disp hwf hst hres)

/-- On a `WFs` state, the only stuck configuration is the finalizer with
an empty result. -/
theorem wf_progress : ∀ {s : EState}, WFs s → step s = .stuck → s = .rev [] [] := by
  intro s hwf hst
  cases s with
  | rev l acc =>
    cases l with
    | nil => rw [hwf rfl]
    | cons x r =>
      cases r with
      | nil => rw [step_rev_done] at hst; cases hst
      | cons y r2 => rw [step_rev_more] at hst; cases hst
  | chk stack inp =>
    exfalso
    cases stack with
    | nil => exact hwf
    | cons F S =>
      obtain ⟨m, mf, p, pf, blk⟩ := F
      obtain ⟨h1, h2, h3⟩ := hwf
      cases inp with
      | cons t r =>
        have hblk : blk = none := h3 (by simp)
        subst hblk
        have hpf : pf = [] := h2 _ (List.mem_cons_self _ _) rfl
        subst hpf
        cases t with
        | group d b => rw [step_descend] at hst; cases hst
        | simple st =>
          obtain ⟨m2, mf2, p2, inp2, heq⟩ := step_simple_progress m mf p S st r
          rw [heq] at hst; cases hst
      | nil =>
        cases blk with
        | some db =>
          obtain ⟨d, body⟩ := db
          rcases step_blk_cases m mf p pf d body S with ⟨n2, p2, hp, hm, heq⟩ | heq <;>
            (rw [heq] at hst; cases hst)
        | none =>
          have hpf : pf = [] := h2 _ (List.mem_cons_self _ _) rfl
          subst hpf
          by_cases hmf : mf = []
          · subst hmf
            cases p with
            | cons last p2 =>
              cases S with
              | nil => rw [step_fin] at hst; cases hst
              | cons G S2 =>
                obtain ⟨m3, mf3, p3, pf3, blk3⟩ := G
                cases blk3 with
                | some db3 =>
                  obtain ⟨d3, gb3⟩ := db3
                  rw [step_merge] at hst; cases hst
                | none => exact absurd rfl (h1 _ (List.mem_cons_self _ _))
            | nil =>
              cases S with
              | nil => rw [step_fin] at hst; cases hst
              | cons G S2 => rw [step_pop (allBlk_of_mem h1)] at hst; cases hst
          · rw [step_mfix hmf] at hst; cases hst

/-- Counterexample to C4 as stated: from the empty input sequence —
which the claim explicitly includes — the engine reaches
`@reverse_tt[[][]]`, a state on which no decode or finalization rule
applies, so the entry invocation fails instead of returning the (empty)
decoded sequence. -/
theorem c4_cex :
    ReachAny (entry []) (EState.rev [] []) ∧
    step (EState.rev [] []) = .stuck := by
  constructor
  · exact ReachAny.cont (by decide) (ReachAny.refl _)
  · decide

/-- C4 (amended: except the finalizer handed an empty result): for every
input token sequence, at every engine state reachable from the entry
invocation — a single frame with mode Expand and all accumulators empty,
dispatches resumed with arbitrary replacements — some decode,
finalization or dispatch rule applies, except in the single state where
the finalizer is handed an empty result (as happens for the empty input
sequence). -/
theorem c4_progress : ∀ (inp : List Tok) (s : EState),
    ReachAny (entry inp) s → step s ≠ .stuck ∨ s = .rev [] [] := by
  intro inp s h
  by_cases hst : step s = .stuck
  · exact Or.inr (wf_progress (reach_wf h (wf_entry inp)) hst)
  · exact Or.inl hst

/-- Witness for C4 at the entry state on input `a`. -/
theorem c4_witness :
    ReachAny (entry [Tok.simple "a"]) (entry [Tok.simple "a"]) ∧
    (step (entry [Tok.simple "a"]) ≠ .stuck ∨ entry [Tok.simple "a"] = .rev [] []) :=
  ⟨ReachAny.refl _, c4_progress [Tok.simple "a"] _ (ReachAny.refl _)⟩

/-- Munching the encoded rule stream accumulates exactly the user's
rules, in order, and finishes through `@final`. -/
theorem emrChain : ∀ (rs : List SRule) (acc : List URule),
    emrFirst acc (encodeRules rs) =
      emrFinal (acc ++ rs.map (fun r => (⟨r.pat, r.exp⟩ : URule))) := by
  intro rs
  induction rs with
  | nil => intro acc; simp [encodeRules, emrFirst]
  | cons r rs ih =>
    intro acc
    have henc : encodeRules (r :: rs) =
        Tok.group r.gd r.pat :: Tok.simple "=>" :: Tok.group r.ed r.exp ::
          encodeRules rs := rfl
    rw [henc]
    show emrExp acc r.pat (Tok.simple "=>" :: Tok.group r.ed r.exp :: encodeRules rs) = _
    show emrFirst (acc ++ [⟨r.pat, r.exp⟩]) (encodeRules rs) = _
    rw [ih]
    simp

/-- The dual form emitted for a non-empty user rule list: all tagged
rules, then all plain rules, each half in user order. -/
theorem emrForm : ∀ rs : List SRule, rs ≠ [] →
    emrFirst [] (encodeRules rs) =
      some (rs.map (fun r => ERule.tagged r.pat r.exp) ++
            rs.map (fun r => ERule.plain r.pat r.exp)) := by
  intro rs h
  rw [emrChain rs []]
  cases rs with
  | nil => exact absurd rfl h
  | cons r rs2 =>
    have hfin : ∀ (u : URule) (us : List URule), emrFinal (u :: us) =
        some ((u :: us).map (fun r => ERule.tagged r.pat r.exp) ++
              (u :: us).map (fun r => ERule.plain r.pat r.exp)) := fun u us => rfl
    have ht : ((fun u : URule => ERule.tagged u.pat u.exp) ∘
        fun r : SRule => (⟨r.pat, r.exp⟩ : URule)) =
        fun r : SRule => ERule.tagged r.pat r.exp := rfl
    have hp : ((fun u : URule => ERule.plain u.pat u.exp) ∘
        fun r : SRule => (⟨r.pat, r.exp⟩ : URule)) =
        fun r : SRule => ERule.plain r.pat r.exp := rfl
    simp only [List.nil_append, List.map_cons, hfin, List.map_map, ht, hp]

/-- Counterexample to C8 as stated: a declaration with k = 0 user rules
does not emit an expander with 0 rules — no rule of the constructor's
`@final` form matches an empty rule list (`$(...)+` needs at least one),
so the host fails and nothing is emitted. -/
theorem c8_cex :
    emrFirst [] (encodeRules ([] : List SRule)) = none ∧
    emrFirst [] (encodeRules ([] : List SRule)) ≠ some [] :=
  ⟨by decide, by decide⟩

/-- C8 (amended: for k ≥ 1 user rules): for every macro declared through
the registry constructor with k ≥ 1 user rules, the emitted expander
consists of exactly 2k rules in which all k sentinel-tagged (`@eager`)
rules come before all k plain rules, each half preserving the user's
original rule order. -/
theorem c8_dualForm : ∀ rs : List SRule, rs ≠ [] →
    emrFirst [] (encodeRules rs) =
      some (rs.map (fun r => ERule.tagged r.pat r.exp) ++
            rs.map (fun r => ERule.plain r.pat r.exp)) ∧
    (rs.map (fun r => ERule.tagged r.pat r.exp) ++
     rs.map (fun r => ERule.plain r.pat r.exp)).length = 2 * rs.length := by
  intro rs h
  refine ⟨emrForm rs h, ?_⟩
  simp [List.length_append, List.length_map]; omega

/-- Witness for C8 at the one-rule declaration `rsW`. -/
theorem c8_witness :
    (rsW ≠ []) ∧
    (emrFirst [] (encodeRules rsW) =
      some (rsW.map (fun r => ERule.tagged r.pat r.exp) ++
            rsW.map (fun r => ERule.plain r.pat r.exp)) ∧
     (rsW.map (fun r => ERule.tagged r.pat r.exp) ++
      rsW.map (fun r => ERule.plain r.pat r.exp)).length = 2 * rsW.length) :=
  ⟨by decide, c8_dualForm rsW (by decide)⟩

/-- A tagged rule never matches an input that does not start with the
`@eager` sentinel marker. -/
theorem taggedNoMatch : ∀ (g e inp : List Tok),
    inp.head? ≠ some eagerMarker → eruleMatch (.tagged g e) inp = false := by
  intro g e inp h
  match inp with
  | [] => rfl
  | m :: rest =>
    have hm : (m == eagerMarker) = false := by
      simpa using fun hh => h (by simp [hh])
    match rest with
    | [] => rfl
    | Tok.simple _ :: _ => rfl
    | Tok.group .curly _ :: _ => rfl
    | Tok.group .round _ :: _ => rfl
    | Tok.group .square _ :: _ => simp [eruleMatch, hm]

/-- Rules that do not match are skipped. -/
theorem invokeE_append_skip : ∀ (A B : List ERule) (inp : List Tok),
    (∀ r ∈ A, eruleMatch r inp = false) → invokeE (A ++ B) inp = invokeE B inp := by
  intro A
  induction A with
  | nil => intro B inp _; rfl
  | cons r A2 ih =>
    intro B inp h
    have hr : eruleMatch r inp = false := h r (by simp)
    have h2 := ih B inp (fun r2 hr2 => h r2 (by simp [hr2]))
    show (if eruleMatch r inp = true then some (eruleOut r inp)
          else invokeE (A2 ++ B) inp) = invokeE B inp
    rw [hr]
    simpa using h2

/-- The plain half of an emitted expander behaves exactly as the
original `macro_rules!` declaration. -/
theorem invokeE_plain : ∀ (rs : List SRule) (inp : List Tok),
    invokeE (rs.map (fun r => ERule.plain r.pat r.exp)) inp = invokeOrig rs inp := by
  intro rs
  induction rs with
  | nil => intro inp; rfl
  | cons r rs2 ih =>
    intro inp
    show invokeE (ERule.plain r.pat r.exp :: rs2.map _) inp = _
    rw [invokeE, invokeOrig, eruleMatch]
    by_cases h : (inp == r.pat) = true
    · simp [h, eruleOut]
    · simp only [Bool.not_eq_true] at h
      simp [h, ih]

/-- Counterexample to C9 as stated: for the declared expander `rsHaz` —
whose first user pattern itself spells the `@eager` sentinel shape — and
the direct input `inpHaz`, which matches that first user pattern, the
emitted expander answers through its second TAGGED rule (yielding a
re-entry into the decode engine), not the first rule's replacement `1`
that the original, unwrapped declaration yields. -/
theorem c9_cex :
    emrFirst [] (encodeRules rsHaz) = some ersHaz ∧
    invokeE ersHaz inpHaz = some (taggedOut [] [Tok.simple "2"]) ∧
    invokeOrig rsHaz inpHaz = some [Tok.simple "1"] ∧
    taggedOut [] [Tok.simple "2"] ≠ [Tok.simple "1"] := by
  refine ⟨by decide, by decide, by decide, by decide⟩

/-- C9 (amended: provided no user pattern begins with the `@eager`
sentinel marker — the restriction the source documents): for every
declared expander and every input matching one of its user-declared
patterns, invoking the emitted expander directly (plain form) yields the
same replacement as the original, unwrapped `macro_rules!` declaration,
and the emitted plain rules carry the user's pattern tokens and
replacement tokens unchanged, after all tagged rules. -/
theorem c9_plainForm : ∀ (rs : List SRule) (inp : List Tok) (ers : List ERule),
    (∀ r ∈ rs, r.pat.head? ≠ some eagerMarker) →
    (∃ r ∈ rs, r.pat = inp) →
    emrFirst [] (encodeRules rs) = some ers →
    invokeE ers inp = invokeOrig rs inp ∧
    ers = rs.map (fun r => ERule.tagged r.pat r.exp) ++
          rs.map (fun r => ERule.plain r.pat r.exp) := by
  intro rs inp ers h1 h2 h3
  obtain ⟨r0, hr0, hpat⟩ := h2
  have hne : rs ≠ [] := by rintro rfl; exact absurd hr0 (by simp)
  have hform := emrForm rs hne
  rw [h3] at hform
  have hers : ers = rs.map (fun r => ERule.tagged r.pat r.exp) ++
      rs.map (fun r => ERule.plain r.pat r.exp) := by
    exact Option.some_injective _ hform
  refine ⟨?_, hers⟩
  have hhead : inp.head? ≠ some eagerMarker := by
    rw [← hpat]; exact h1 r0 hr0
  rw [hers, invokeE_append_skip _ _ _ ?_, invokeE_plain]
  intro r hr
  simp only [List.mem_map] at hr
  obtain ⟨r2, _, hr2⟩ := hr
  rw [← hr2]
  exact taggedNoMatch _ _ _ hhead

/-- Witness for C9 at the one-rule declaration `rsW` and the input
matching its pattern. -/
theorem c9_witness :
    (∀ r ∈ rsW, r.pat.head? ≠ some eagerMarker) ∧
    (∃ r ∈ rsW, r.pat = [Tok.simple "p"]) ∧
    emrFirst [] (encodeRules rsW) =
      some [ERule.tagged [Tok.simple "p"] [Tok.simple "e"],
            ERule.plain [Tok.simple "p"] [Tok.simple "e"]] ∧
    invokeE [ERule.tagged [Tok.simple "p"] [Tok.simple "e"],
             ERule.plain [Tok.simple "p"] [Tok.simple "e"]] [Tok.simple "p"] =
      invokeOrig rsW [Tok.simple "p"] := by
  refine ⟨by decide, by decide, by decide, ?_⟩
  exact (c9_plainForm rsW [Tok.simple "p"] _ (by decide) (by decide) (by decide)).1
